import Mathlib

/-!
Verification of core behaviours of the ShibuDB server (Go sources).

The development shallowly embeds the parts of the code base that the
statements below are about:

* `internal/wal/wal.go` — the write-ahead log (`WriteEntry`, `WriteDelete`,
  `MarkCommitted`, `Replay`, `Clear`), with the on-disk file modelled as a
  byte list (`List Nat`, each entry a byte value) and the file handle's
  read/write cursor modelled explicitly, since the file is opened without
  `O_APPEND` and all writes go to the current cursor.
* the key–value engine (`ShibuDB` struct: `Put`/`PutBatch`, `Get`, `Delete`,
  `FlushBatch`), with the B-tree key index modelled from the spec as an
  upsert map because its implementation file is not part of the snapshot
  (only its tests are).
* the vector engine (`VectorEngineImpl`: `InsertVector`, `insertAfterWAL`,
  `GetVectorByID`, `appendToDataFile`, `flushData`, `requiredTrainCount`,
  `RangeSearch`), with float32 values represented by their 32-bit patterns
  (`math.Float32bits` / `math.Float32frombits` are mutually inverse, so
  element-wise equality of vectors is equality of bit patterns) and FAISS
  treated as an opaque id-mapped container.
* the connection manager (`ConnectionManager.UpdateLimit`, the buffered
  limit-update channel and the dynamic limit manager, `SaveConnectionLimit`).
* the auth manager (`HasRole`, `CreateUser`, `UpdateUserPassword`,
  `bootstrapAdmin`) and the per-command permission switch of
  `handleConnection`.

Go byte strings are modelled as `List Nat` (byte values), Go strings used
as identifiers (role names, command types, index descriptors) as
`List Char`.
-/

namespace ShibuDB

/-! ### Little-endian byte encoding (`encoding/binary`) -/

/-- `binary.LittleEndian.PutUint32`: the 4 little-endian bytes of `n`. -/
def u32le (n : Nat) : List Nat :=
  [n % 256, n / 256 % 256, n / 65536 % 256, n / 16777216 % 256]

/-- `binary.LittleEndian.PutUint64`: the 8 little-endian bytes of `n`. -/
def u64le (n : Nat) : List Nat :=
  [n % 256, n / 256 % 256, n / 65536 % 256, n / 16777216 % 256,
   n / 4294967296 % 256, n / 1099511627776 % 256,
   n / 281474976710656 % 256, n / 72057594037927936 % 256]

/-- Little-endian reassembly of a byte list (`binary.LittleEndian.Uint32`
applied to a 4-byte slice, `Uint64` to an 8-byte slice). -/
def leNat (l : List Nat) : Nat :=
  l.foldr (fun b acc => b % 256 + 256 * acc) 0

theorem leNat_u32le (n : Nat) (h : n < 4294967296) : leNat (u32le n) = n := by
  simp only [u32le, leNat, List.foldr]
  omega

theorem length_u32le (n : Nat) : (u32le n).length = 4 := rfl

theorem length_u64le (n : Nat) : (u64le n).length = 8 := rfl

/-- `ReadAt`-style slice of a byte list: `n` bytes starting at `off`. -/
def readAt (f : List Nat) (off n : Nat) : List Nat :=
  (f.drop off).take n

theorem readAt_append (f g : List Nat) (off n : Nat) (h : off + n ≤ f.length) :
    readAt (f ++ g) off n = readAt f off n := by
  unfold readAt
  rw [List.drop_append_of_le_length (by omega)]
  rw [List.take_append_of_le_length (by simp; omega)]

theorem readAt_append_self (f g : List Nat) :
    readAt (f ++ g) f.length g.length = g := by
  unfold readAt
  simp

/-! ### Write-ahead log (`internal/wal/wal.go`)

The WAL file handle is opened with `os.O_RDWR|os.O_CREATE` (no `O_APPEND`),
so every `Write` lands at the handle's current cursor.  `overwrite` models a
positioned write: bytes beyond the end of file extend it, and a write past
the end leaves a zero-filled gap (POSIX sparse-write semantics). -/

/-- Positioned write of `b` into `f` at byte offset `pos`. -/
def overwrite (f : List Nat) (pos : Nat) (b : List Nat) : List Nat :=
  f.take pos ++ List.replicate (pos - f.length) 0 ++ b ++ f.drop (pos + b.length)

theorem overwrite_at_end (f b : List Nat) : overwrite f f.length b = f ++ b := by
  simp [overwrite]

/-- WAL flag bytes: `'P'` pending, `'C'` committed, `'D'` delete. -/
def flagP : Nat := 80

def flagC : Nat := 67

def flagD : Nat := 68

/-- One WAL frame: `[keySize u32 LE][valSize u32 LE][flag]` then key then
value bytes (`WriteEntry` / `WriteDelete` buffer layout). -/
def walFrame (key value : List Nat) (flag : Nat) : List Nat :=
  u32le key.length ++ u32le value.length ++ [flag] ++ key ++ value

/-- The in-memory state of an open `WAL`: the file contents and the file
handle's cursor. -/
structure WALState where
  file : List Nat
  cursor : Nat
deriving Repr, DecidableEq

/-- `OpenWAL` on a fresh (empty) file: cursor at offset 0. -/
def openWAL : WALState := ⟨[], 0⟩

/-- The WAL mutations exercised by the claims. -/
inductive WalOp where
| writeEntry (key value : List Nat)
| writeDelete (key : List Nat)
| markCommitted
| clear
deriving Repr, DecidableEq

/-- One step of the WAL: `WriteEntry` and `WriteDelete` write a frame at the
cursor; `MarkCommitted` seeks to offset 8, writes `'C'` and leaves the cursor
at 9; `Clear` truncates the file by name without touching the handle's
cursor. -/
def walStep (s : WALState) : WalOp → WALState
| .writeEntry k v =>
    ⟨overwrite s.file s.cursor (walFrame k v flagP),
     s.cursor + (walFrame k v flagP).length⟩
| .writeDelete k =>
    ⟨overwrite s.file s.cursor (walFrame k [] flagD),
     s.cursor + (walFrame k [] flagD).length⟩
| .markCommitted => ⟨overwrite s.file 8 [flagC], 9⟩
| .clear => ⟨[], s.cursor⟩

def walExec (s : WALState) (ops : List WalOp) : WALState := ops.foldl walStep s

/-- Result of `io.ReadFull` on the remaining bytes of the file. -/
inductive ReadRes where
| ok (bytes rest : List Nat)
| eofErr     -- io.EOF: nothing left but a non-empty read was requested
| truncated  -- io.ErrUnexpectedEOF: some bytes, fewer than requested
deriving Repr, DecidableEq

def readFull (n : Nat) (l : List Nat) : ReadRes :=
  if n = 0 then .ok [] l
  else if l.isEmpty then .eofErr
  else if l.length < n then .truncated
  else .ok (l.take n) (l.drop n)

/-- The errors `Replay` can return (I/O errors aside). -/
inductive ReplayError where
| eof            -- io.EOF from a key/value ReadFull, propagated as an error
| unexpectedEOF  -- partial 9-byte header
deriving Repr, DecidableEq

/-- Decidable equality for `Except` results, so concrete runs can be checked
by `decide`. -/
def exceptDecEq {E A : Type} [DecidableEq E] [DecidableEq A] :
    DecidableEq (Except E A)
| .error e, .error f =>
  if h : e = f then .isTrue (by rw [h]) else .isFalse (fun hc => h (by cases hc; rfl))
| .ok a, .ok b =>
  if h : a = b then .isTrue (by rw [h]) else .isFalse (fun hc => h (by cases hc; rfl))
| .error _, .ok _ => .isFalse (fun hc => by cases hc)
| .ok _, .error _ => .isFalse (fun hc => by cases hc)

instance {E A : Type} [DecidableEq E] [DecidableEq A] : DecidableEq (Except E A) :=
  exceptDecEq

/-- The loop body of `Replay`, with fuel for termination (one unit per
frame; `Replay` always supplies more fuel than the file can consume).
Mirrors wal.go: a 9-byte header is read (`io.EOF` ends the loop, a partial
header is an error); a `'C'` flag skips only the header (`continue`); the
key and the value are then read with `io.ReadFull`, where
`io.ErrUnexpectedEOF` ends the loop silently but a bare `io.EOF` is
returned as an error. -/
def replayGo : Nat → List Nat → Except ReplayError (List (List Nat × List Nat))
| 0, _ => .ok []
| fuel + 1, bytes =>
  if bytes.isEmpty then .ok []
  else if bytes.length < 9 then .error .unexpectedEOF
  else
    let ks := leNat (bytes.take 4)
    let vs := leNat ((bytes.drop 4).take 4)
    let flag := leNat ((bytes.drop 8).take 1)
    let rest := bytes.drop 9
    if flag = flagC then replayGo fuel rest
    else
      match readFull ks rest with
      | .eofErr => .error .eof
      | .truncated => .ok []
      | .ok key rest2 =>
        match readFull vs rest2 with
        | .eofErr => .error .eof
        | .truncated => .ok []
        | .ok val rest3 =>
          (replayGo fuel rest3).map (fun es => (key, val) :: es)

/-- `Replay`: parse the whole file from offset 0. -/
def walReplay (f : List Nat) : Except ReplayError (List (List Nat × List Nat)) :=
  replayGo (f.length + 1) f

/-- `WriteEntry` and `WriteDelete` are the appending operations. -/
def isAppendOp : WalOp → Bool
| .writeEntry _ _ => true
| .writeDelete _ => true
| _ => false

/-- Key and value sizes fit the `u32` header fields. -/
def opSizeOk : WalOp → Bool
| .writeEntry k v => decide (k.length < 4294967296) && decide (v.length < 4294967296)
| .writeDelete k => decide (k.length < 4294967296)
| _ => true

/-- The frame an appending operation writes. -/
def opFrame : WalOp → List Nat
| .writeEntry k v => walFrame k v flagP
| .writeDelete k => walFrame k [] flagD
| _ => []

/-- The (key, value) pair `Replay` yields for an appending operation
(deletes carry an empty value). -/
def opEntry : WalOp → List Nat × List Nat
| .writeEntry k v => (k, v)
| .writeDelete k => (k, [])
| _ => ([], [])

theorem length_walFrame (k v : List Nat) (flag : Nat) :
    (walFrame k v flag).length = 9 + k.length + v.length := by
  simp [walFrame, u32le]
  omega

theorem walExec_appendOps (ops : List WalOp)
    (h : ∀ op ∈ ops, isAppendOp op = true) :
    ∀ s : WALState, s.cursor = s.file.length →
      (walExec s ops).file = s.file ++ (ops.map opFrame).flatten
      ∧ (walExec s ops).cursor = (walExec s ops).file.length := by
  induction ops with
  | nil => intro s hs; simp [walExec, hs]
  | cons op ops ih =>
    intro s hs
    have hop := h op (by simp)
    have hrest : ∀ o ∈ ops, isAppendOp o = true := fun o ho => h o (by simp [ho])
    have hstep : (walStep s op).file = s.file ++ opFrame op
        ∧ (walStep s op).cursor = (walStep s op).file.length := by
      cases op with
      | writeEntry k v =>
        simp [walStep, opFrame, hs, overwrite_at_end]
      | writeDelete k =>
        simp [walStep, opFrame, hs, overwrite_at_end]
      | markCommitted => simp [isAppendOp] at hop
      | clear => simp [isAppendOp] at hop
    have := ih hrest (walStep s op) hstep.2
    simp only [walExec, List.foldl_cons] at this ⊢
    refine ⟨?_, this.2⟩
    rw [this.1, hstep.1]
    simp

theorem readFull_exact (l t : List Nat) : readFull l.length (l ++ t) = .ok l t := by
  cases l with
  | nil => simp [readFull]
  | cons a l =>
    simp only [readFull]
    rw [if_neg (by simp), if_neg (by simp),
      if_neg (by simp only [List.length_append, List.length_cons, Nat.not_lt]; omega)]
    rw [List.take_left, List.drop_left]

theorem replayGo_nil (fuel : Nat) : replayGo fuel [] = .ok [] := by
  cases fuel <;> simp [replayGo]

theorem replayGo_succ (fuel : Nat) (bytes : List Nat) :
    replayGo (fuel + 1) bytes =
      if bytes.isEmpty then .ok []
      else if bytes.length < 9 then .error .unexpectedEOF
      else if leNat ((bytes.drop 8).take 1) = flagC then replayGo fuel (bytes.drop 9)
      else
        match readFull (leNat (bytes.take 4)) (bytes.drop 9) with
        | .eofErr => .error .eof
        | .truncated => .ok []
        | .ok key rest2 =>
          match readFull (leNat ((bytes.drop 4).take 4)) rest2 with
          | .eofErr => .error .eof
          | .truncated => .ok []
          | .ok val rest3 =>
            (replayGo fuel rest3).map (fun es => (key, val) :: es) := rfl

theorem replayGo_frame (fuel : Nat) (k v rest : List Nat) (flag : Nat)
    (hflag : flag < 256) (hne : flag ≠ 67)
    (hk : k.length < 4294967296) (hv : v.length < 4294967296) :
    replayGo (fuel + 1) (walFrame k v flag ++ rest)
      = (replayGo fuel rest).map (fun es => (k, v) :: es) := by
  have htake4 : (walFrame k v flag ++ rest).take 4 = u32le k.length := by
    simp [walFrame, u32le, List.take]
  have hdrop4 : ((walFrame k v flag ++ rest).drop 4).take 4 = u32le v.length := by
    simp [walFrame, u32le, List.drop, List.take]
  have hdrop8 : ((walFrame k v flag ++ rest).drop 8).take 1 = [flag] := by
    simp [walFrame, u32le, List.drop, List.take]
  have hdrop9 : (walFrame k v flag ++ rest).drop 9 = k ++ (v ++ rest) := by
    simp [walFrame, u32le, List.drop]
  have hlen : ¬ ((walFrame k v flag ++ rest).length < 9) := by
    simp only [List.length_append, length_walFrame, Nat.not_lt]; omega
  have hemp : (walFrame k v flag ++ rest).isEmpty = false := by
    simp [walFrame, u32le]
  have hflagv : leNat [flag] = flag := by
    simp [leNat]; omega
  rw [replayGo_succ, hemp]
  simp only [Bool.false_eq_true, if_false]
  rw [if_neg hlen, hdrop8, hflagv, if_neg (by simpa [flagC] using hne),
    htake4, hdrop4, hdrop9, leNat_u32le _ hk, leNat_u32le _ hv,
    readFull_exact k (v ++ rest)]
  dsimp only
  rw [readFull_exact v rest]

theorem replayGo_opsBytes (ops : List WalOp)
    (happ : ∀ op ∈ ops, isAppendOp op = true)
    (hsz : ∀ op ∈ ops, opSizeOk op = true) :
    ∀ (fuel : Nat), ops.length < fuel → ∀ (tail : List Nat),
      replayGo fuel ((ops.map opFrame).flatten ++ tail)
        = (replayGo (fuel - ops.length) tail).map (fun es => ops.map opEntry ++ es) := by
  induction ops with
  | nil =>
    intro fuel _ tail
    simp only [List.map_nil, List.flatten_nil, List.nil_append, List.length_nil,
      Nat.sub_zero]
    cases replayGo fuel tail <;> rfl
  | cons op ops ih =>
    intro fuel hfuel tail
    cases fuel with
    | zero => omega
    | succ f =>
      have hop := happ op (by simp)
      have hsop := hsz op (by simp)
      have hrest1 : ∀ o ∈ ops, isAppendOp o = true := fun o ho => happ o (by simp [ho])
      have hrest2 : ∀ o ∈ ops, opSizeOk o = true := fun o ho => hsz o (by simp [ho])
      have hfr : f - ops.length = f + 1 - (ops.length + 1) := by omega
      have step : replayGo (f + 1) (opFrame op ++ ((ops.map opFrame).flatten ++ tail))
          = (replayGo f ((ops.map opFrame).flatten ++ tail)).map
              (fun es => opEntry op :: es) := by
        cases op with
        | writeEntry k v =>
          simp only [opSizeOk, Bool.and_eq_true, decide_eq_true_eq] at hsop
          exact replayGo_frame f k v _ flagP (by simp [flagP]) (by simp [flagP])
            hsop.1 hsop.2
        | writeDelete k =>
          simp only [opSizeOk, decide_eq_true_eq] at hsop
          exact replayGo_frame f k [] _ flagD (by simp [flagD]) (by simp [flagD])
            hsop (by simp)
        | markCommitted => simp [isAppendOp] at hop
        | clear => simp [isAppendOp] at hop
      have hihf : ops.length < f := by simp at hfuel; omega
      simp only [List.map_cons, List.flatten_cons, List.append_assoc, List.length_cons]
      rw [step, ih hrest1 hrest2 f hihf tail, ← hfr]
      cases replayGo (f - ops.length) tail <;> rfl

theorem opFrame_length_pos (op : WalOp) (h : isAppendOp op = true) :
    1 ≤ (opFrame op).length := by
  cases op <;> simp_all [isAppendOp, opFrame, length_walFrame] <;> omega

theorem ops_length_le_bytes (ops : List WalOp)
    (happ : ∀ op ∈ ops, isAppendOp op = true) :
    ops.length ≤ ((ops.map opFrame).flatten).length := by
  induction ops with
  | nil => simp
  | cons op ops ih =>
    have h1 := opFrame_length_pos op (happ op (by simp))
    have h2 := ih (fun o ho => happ o (by simp [ho]))
    simp only [List.map_cons, List.flatten_cons, List.length_append, List.length_cons]
    omega

theorem replayGo_partial_key (g : Nat) (hg : 1 ≤ g) (k v : List Nat) (t : Nat)
    (ht0 : 0 < t) (ht : t < k.length) (hk : k.length < 4294967296)
    (hv : v.length < 4294967296) :
    replayGo g (u32le k.length ++ u32le v.length ++ [flagP] ++ k.take t) = .ok [] := by
  cases g with
  | zero => omega
  | succ g =>
    have htk : (k.take t).length = t := by
      rw [List.length_take]
      exact Nat.min_eq_left ht.le
    have hlt : (u32le k.length ++ u32le v.length ++ [flagP] ++ k.take t).length
        = 9 + t := by
      simp only [List.length_append, length_u32le, List.length_cons, List.length_nil, htk]
    have htake4 : (u32le k.length ++ u32le v.length ++ [flagP] ++ k.take t).take 4
        = u32le k.length := by
      simp [u32le, List.take]
    have hdrop4 : ((u32le k.length ++ u32le v.length ++ [flagP] ++ k.take t).drop 4).take 4
        = u32le v.length := by
      simp [u32le, List.drop, List.take]
    have hdrop8 : ((u32le k.length ++ u32le v.length ++ [flagP] ++ k.take t).drop 8).take 1
        = [flagP] := by
      simp [u32le, List.drop, List.take]
    have hdrop9 : (u32le k.length ++ u32le v.length ++ [flagP] ++ k.take t).drop 9
        = k.take t := by
      simp [u32le, List.drop]
    have hflagv : leNat [flagP] = flagP := by simp [leNat, flagP]
    have hread : readFull k.length (k.take t) = .truncated := by
      unfold readFull
      rw [if_neg (by omega)]
      rw [if_neg (by simp only [List.isEmpty_iff_length_eq_zero, htk]; omega)]
      rw [if_pos (by rw [htk]; omega)]
    rw [replayGo_succ,
      if_neg (by rw [List.isEmpty_iff_length_eq_zero, hlt]; omega),
      if_neg (by rw [hlt]; omega),
      hdrop8, hflagv, if_neg (by simp [flagP, flagC]),
      htake4, hdrop4, hdrop9, leNat_u32le _ hk, leNat_u32le _ hv, hread]

/-- C1 — counterexample.  After `WriteEntry("a", "")` followed by
`MarkCommitted`, the WAL file is the single committed frame
`[1,0,0,0, 0,0,0,0, 'C', 'a']`.  The claim says `Replay` returns exactly the
non-committed entries — here `[]` — silently ignoring any truncated tail.
Instead, because the `'C'` branch of the loop skips only the 9-byte header
and then treats the 1-byte payload `'a'` as the start of a new frame,
`Replay` hits a partial header and returns the `io.ErrUnexpectedEOF` error
rather than `[]`. -/
theorem c1_replay_committed_counterexample :
    walReplay (walExec openWAL [.writeEntry [97] [], .markCommitted]).file
        = .error .unexpectedEOF
    ∧ walReplay (walExec openWAL [.writeEntry [97] [], .markCommitted]).file
        ≠ .ok [] := by
  decide

/-- C1 — amended.  For every WAL file produced by `WriteEntry` and
`WriteDelete` calls alone (no `MarkCommitted`), `Replay` starts at the
beginning, reads whole frames until EOF and returns exactly the written
entries as (key, value) pairs in append order, a delete entry carrying an
empty value; and a tail truncated strictly inside the key bytes of a final
partial frame is silently ignored.  (With `MarkCommitted` in the sequence
the property fails: `Replay` skips only the 9-byte header of a committed
frame and re-parses its payload bytes as frames, and a tail of 1–8 bytes
makes `Replay` return an error instead of ignoring it.) -/
theorem c1_replay_append_only (ops : List WalOp)
    (happ : ∀ op ∈ ops, isAppendOp op = true)
    (hsz : ∀ op ∈ ops, opSizeOk op = true) :
    walReplay (walExec openWAL ops).file = .ok (ops.map opEntry)
    ∧ ∀ (k v : List Nat) (t : Nat), 0 < t → t < k.length →
        k.length < 4294967296 → v.length < 4294967296 →
        walReplay ((walExec openWAL ops).file
            ++ (u32le k.length ++ u32le v.length ++ [flagP] ++ k.take t))
          = .ok (ops.map opEntry) := by
  have hfile : (walExec openWAL ops).file = (ops.map opFrame).flatten := by
    have := (walExec_appendOps ops happ openWAL rfl).1
    simpa [openWAL] using this
  have hle := ops_length_le_bytes ops happ
  constructor
  · rw [hfile]
    unfold walReplay
    have h2 := replayGo_opsBytes ops happ hsz
      (((ops.map opFrame).flatten).length + 1) (by omega) []
    simpa [replayGo_nil, Except.map] using h2
  · intro k v t ht0 ht hk hv
    rw [hfile]
    unfold walReplay
    have h2 := replayGo_opsBytes ops happ hsz
      (((ops.map opFrame).flatten
          ++ (u32le k.length ++ u32le v.length ++ [flagP] ++ k.take t)).length + 1)
      (by simp only [List.length_append]; omega)
      (u32le k.length ++ u32le v.length ++ [flagP] ++ k.take t)
    rw [h2, replayGo_partial_key _ (by simp only [List.length_append]; omega)
      k v t ht0 ht hk hv]
    simp [Except.map]

/-- C1 — witness: the amended theorem applied to the concrete call sequence
`WriteEntry([1,2], [3]); WriteDelete([9])`, with and without a truncated
partial frame of key `[5,6]`, value `[]`, cut after one key byte. -/
theorem c1_replay_append_only_witness :
    (∀ op ∈ ([.writeEntry [1, 2] [3], .writeDelete [9]] : List WalOp),
        isAppendOp op = true)
    ∧ walReplay (walExec openWAL [.writeEntry [1, 2] [3], .writeDelete [9]]).file
        = .ok [([1, 2], [3]), ([9], [])]
    ∧ walReplay ((walExec openWAL [.writeEntry [1, 2] [3], .writeDelete [9]]).file
        ++ (u32le ([5, 6] : List Nat).length ++ u32le ([] : List Nat).length
            ++ [flagP] ++ ([5, 6] : List Nat).take 1))
        = .ok [([1, 2], [3]), ([9], [])] := by
  refine ⟨by decide, ?_, ?_⟩
  · exact (c1_replay_append_only [.writeEntry [1, 2] [3], .writeDelete [9]]
      (by decide) (by decide)).1
  · exact (c1_replay_append_only [.writeEntry [1, 2] [3], .writeDelete [9]]
      (by decide) (by decide)).2 [5, 6] [] 1 (by decide) (by decide)
      (by decide) (by decide)

/-- C10 — confirmed.  WAL writes go to the handle's cursor, not to
end-of-file: a fresh `OpenWAL` handle sits at offset 0; `MarkCommitted`
leaves the cursor at byte offset 9; `Clear` truncates the file without
resetting the cursor.  Consequently, after `WriteEntry; MarkCommitted;
WriteEntry` the second frame sits at byte offset 9, overwriting the first
frame's payload while its header (with flag `'C'`) survives in the first 9
bytes; and after `WriteEntry(\x22\x22, \x22\x22); Clear; WriteEntry([120], [121])` the
second frame is written at the stale offset 9, leaving a 9-byte zero-filled
gap that `Replay` decodes as a pending empty entry. -/
theorem c10_wal_cursor_semantics :
    openWAL.cursor = 0
    ∧ (∀ s : WALState, (walStep s .markCommitted).cursor = 9)
    ∧ (∀ s : WALState, (walStep s .clear).cursor = s.cursor
        ∧ (walStep s .clear).file = [])
    ∧ (∀ k v k2 v2 : List Nat,
        readAt (walExec openWAL
              [.writeEntry k v, .markCommitted, .writeEntry k2 v2]).file
            9 (walFrame k2 v2 flagP).length
          = walFrame k2 v2 flagP
        ∧ (walExec openWAL
              [.writeEntry k v, .markCommitted, .writeEntry k2 v2]).file.take 9
          = u32le k.length ++ u32le v.length ++ [flagC])
    ∧ walReplay (walExec openWAL
          [.writeEntry [] [], .clear, .writeEntry [120] [121]]).file
        = .ok [([], []), ([120], [121])] := by
  refine ⟨rfl, fun s => rfl, fun s => ⟨rfl, rfl⟩, ?_, by decide⟩
  intro k v k2 v2
  have h1 : walStep openWAL (.writeEntry k v)
      = ⟨walFrame k v flagP, (walFrame k v flagP).length⟩ := by
    simp [walStep, openWAL, overwrite]
  have e1 : 8 - (walFrame k v flagP).length = 0 := by
    rw [length_walFrame]; omega
  have ht8 : (walFrame k v flagP).take 8 = u32le k.length ++ u32le v.length := by
    simp [walFrame, u32le, List.take]
  have hd9 : (walFrame k v flagP).drop 9 = k ++ v := by
    simp [walFrame, u32le, List.drop]
  have h2 : walStep ⟨walFrame k v flagP, (walFrame k v flagP).length⟩ .markCommitted
      = ⟨(u32le k.length ++ u32le v.length ++ [flagC]) ++ (k ++ v), 9⟩ := by
    show (⟨overwrite (walFrame k v flagP) 8 [flagC], 9⟩ : WALState) = _
    unfold overwrite
    rw [e1]
    simp only [List.replicate_zero, List.nil_append, List.append_nil]
    rw [show (8 : Nat) + ([flagC] : List Nat).length = 9 from rfl, ht8, hd9]
  have hA9 : ((u32le k.length ++ u32le v.length ++ [flagC]) : List Nat).length = 9 := by
    simp [u32le]
  have h3 : (walExec openWAL
        [.writeEntry k v, .markCommitted, .writeEntry k2 v2]).file
      = ((u32le k.length ++ u32le v.length ++ [flagC]) ++ walFrame k2 v2 flagP)
        ++ (k ++ v).drop (walFrame k2 v2 flagP).length := by
    show (walStep (walStep (walStep openWAL (.writeEntry k v)) .markCommitted)
        (.writeEntry k2 v2)).file = _
    rw [h1, h2]
    show overwrite ((u32le k.length ++ u32le v.length ++ [flagC]) ++ (k ++ v)) 9
        (walFrame k2 v2 flagP) = _
    unfold overwrite
    have e2 : 9 - (((u32le k.length ++ u32le v.length ++ [flagC])
        ++ (k ++ v)) : List Nat).length = 0 := by
      simp only [List.length_append, hA9]
      omega
    rw [e2]
    simp only [List.replicate_zero, List.nil_append, List.append_nil]
    rw [show ((u32le k.length ++ u32le v.length ++ [flagC]) ++ (k ++ v)).take 9
        = u32le k.length ++ u32le v.length ++ [flagC] from by
      rw [← hA9, List.take_left]]
    rw [show (9 : Nat) + (walFrame k2 v2 flagP).length
        = ((u32le k.length ++ u32le v.length ++ [flagC]) : List Nat).length
          + (walFrame k2 v2 flagP).length from by rw [hA9]]
    rw [List.drop_append]
  constructor
  · rw [h3, readAt_append _ _ 9 (walFrame k2 v2 flagP).length
      (by simp only [List.length_append, hA9]; omega)]
    unfold readAt
    rw [show (9 : Nat)
        = ((u32le k.length ++ u32le v.length ++ [flagC]) : List Nat).length
        from hA9.symm]
    rw [List.drop_left, List.take_length]
  · rw [h3]
    have hre : ((u32le k.length ++ u32le v.length ++ [flagC]) ++ walFrame k2 v2 flagP)
          ++ (k ++ v).drop (walFrame k2 v2 flagP).length
        = (u32le k.length ++ u32le v.length ++ [flagC])
          ++ (walFrame k2 v2 flagP ++ (k ++ v).drop (walFrame k2 v2 flagP).length) := by
      simp
    rw [hre, show (9 : Nat)
        = ((u32le k.length ++ u32le v.length ++ [flagC]) : List Nat).length
        from hA9.symm, List.take_left]

/-! ### Association-list maps

Go `map` values (the key–value batch, the in-memory key index, permission
maps, the vector engine's offset map) are modelled as association lists with
replace-on-insert semantics. -/

def alGet {A B : Type} [DecidableEq A] : List (A × B) → A → Option B
| [], _ => none
| p :: rest, k => if p.1 = k then some p.2 else alGet rest k

def alSet {A B : Type} [DecidableEq A] (l : List (A × B)) (k : A) (v : B) :
    List (A × B) :=
  (k, v) :: l.filter (fun p => p.1 ≠ k)

theorem alGet_alSet_self {A B : Type} [DecidableEq A]
    (l : List (A × B)) (k : A) (v : B) : alGet (alSet l k v) k = some v := by
  simp [alGet, alSet]

theorem alGet_filter_ne {A B : Type} [DecidableEq A]
    (l : List (A × B)) (k k2 : A) (h : k2 ≠ k) :
    alGet (l.filter (fun p => p.1 ≠ k)) k2 = alGet l k2 := by
  induction l with
  | nil => rfl
  | cons p rest ih =>
    rw [List.filter_cons]
    by_cases hp : p.1 = k
    · have hp2 : ¬ p.1 = k2 := by rw [hp]; exact fun he => h he.symm
      rw [if_neg (by simp [hp]), ih]
      show alGet rest k2 = alGet (p :: rest) k2
      show alGet rest k2 = if p.1 = k2 then some p.2 else alGet rest k2
      rw [if_neg hp2]
    · rw [if_pos (by simp [hp])]
      show alGet (p :: rest.filter (fun p => p.1 ≠ k)) k2 = alGet (p :: rest) k2
      show (if p.1 = k2 then some p.2 else alGet (rest.filter (fun p => p.1 ≠ k)) k2)
          = if p.1 = k2 then some p.2 else alGet rest k2
      by_cases hp2 : p.1 = k2
      · rw [if_pos hp2, if_pos hp2]
      · rw [if_neg hp2, if_neg hp2, ih]

theorem alGet_alSet_ne {A B : Type} [DecidableEq A]
    (l : List (A × B)) (k k2 : A) (v : B) (h : k2 ≠ k) :
    alGet (alSet l k v) k2 = alGet l k2 := by
  have hne : ¬ (k = k2) := fun he => h he.symm
  show (if k = k2 then some v else alGet (l.filter (fun p => p.1 ≠ k)) k2) = alGet l k2
  rw [if_neg hne, alGet_filter_ne l k k2 h]

theorem readAt_take (f : List Nat) (off a b : Nat) (hab : a ≤ b) :
    readAt f off a = (readAt f off b).take a := by
  unfold readAt
  rw [List.take_take, Nat.min_eq_left hab]

theorem readAt_shift (f : List Nat) (off a b : Nat) :
    (readAt f off (a + b)).drop a = readAt f (off + a) b := by
  unfold readAt
  rw [List.drop_take, List.drop_drop]
  congr 1
  omega

/-! ### Key–value engine (`ShibuDB` struct)

State of an open key–value engine: the append-only data file, the
in-memory write batch, the key index and the WAL.  The B-tree key index
implementation is not part of the source snapshot (only its tests are).
The index used below is *modelled from the spec*: §4.2 describes it as an
ordered map from key to file offset with `add` (upsert), `get` and `remove`,
which its unit test confirms; it is embedded as an upsert association list
(order is irrelevant to the claims below). -/

structure KVState where
  file : List Nat
  batch : List (List Nat × List Nat)
  keyIndex : List (List Nat × Nat)
  walS : WALState
deriving Repr, DecidableEq

/-- The reserved tombstone value `"__deleted__"` as bytes. -/
def tombstone : List Nat := [95, 95, 100, 101, 108, 101, 116, 101, 100, 95, 95]

/-- A fresh engine over empty files (`OpenDBWithPaths` with nothing to
reload or replay). -/
def openDB : KVState := ⟨[], [], [], openWAL⟩

/-- `Put` = `PutBatch`: store into the in-memory batch map and return. -/
def putKV (s : KVState) (k v : List Nat) : KVState :=
  { s with batch := alSet s.batch k v }

/-- Key–value data-file record: `[keySize u32 LE][valSize u32 LE]` then key
then value bytes. -/
def kvRecord (k v : List Nat) : List Nat :=
  u32le k.length ++ u32le v.length ++ k ++ v

theorem length_kvRecord (k v : List Nat) :
    (kvRecord k v).length = 8 + k.length + v.length := by
  simp [kvRecord, u32le]
  omega

/-- The errors `Get` and `Delete` can return. -/
inductive KvErr where
| notFound   -- "key not found"
| deleted    -- "key is deleted"
| readErr    -- an io error from ReadAt (fewer bytes than requested)
| mismatch   -- "key mismatch at position ..."
deriving Repr, DecidableEq

/-- `Get`: consult the batch first (read-your-own-writes); on a miss look
the key up in the index, read the 8-byte header at the stored offset, then
the key bytes and the value bytes; a stored key mismatch is an error, the
tombstone value reports "key is deleted". -/
def getKV (s : KVState) (k : List Nat) : Except KvErr (List Nat) :=
  match alGet s.batch k with
  | some v => .ok v
  | none =>
    match alGet s.keyIndex k with
    | none => .error .notFound
    | some pos =>
      if s.file.length < pos + 8 then .error .readErr
      else
        let header := readAt s.file pos 8
        let ks := leNat (header.take 4)
        let vs := leNat (header.drop 4)
        if s.file.length < pos + 8 + ks then .error .readErr
        else
          let keyBytes := readAt s.file (pos + 8) ks
          if s.file.length < pos + 8 + ks + vs then .error .readErr
          else
            let valBytes := readAt s.file (pos + 8 + ks) vs
            if keyBytes = k then
              if valBytes = tombstone then .error .deleted else .ok valBytes
            else .error .mismatch

/-- One iteration of the data-file loop of `FlushBatch`: seek to the end,
write the record there, then `index.Add(key, pos)`. -/
def kvAppend (st : KVState) (p : List Nat × List Nat) : KVState :=
  { st with
    file := st.file ++ kvRecord p.1 p.2,
    keyIndex := alSet st.keyIndex p.1 st.file.length }

/-- `FlushBatch`: snapshot and clear the batch; if non-empty, write a WAL
entry per pair, then append each pair to the data file updating the index,
then `MarkCommitted`; finally `Clear` the WAL if `ShouldCheckpoint` (file
over 1 MiB). -/
def flushBatch (s : KVState) : KVState :=
  let snap := s.batch
  let s1 := { s with batch := [] }
  if snap.isEmpty then s1
  else
    let s2 : KVState := { s1 with
      walS := snap.foldl (fun w p => walStep w (.writeEntry p.1 p.2)) s1.walS }
    let s3 : KVState := snap.foldl kvAppend s2
    let s4 : KVState := { s3 with walS := walStep s3.walS .markCommitted }
    if 1048576 < s4.walS.file.length then { s4 with walS := walStep s4.walS .clear }
    else s4

/-- `Delete`: error out if the key is not in the index; otherwise remove it
from the index, write a WAL delete record and append a (key, empty-value)
record to the data file.  On error the state is unchanged. -/
def deleteKV (s : KVState) (k : List Nat) : Except KvErr KVState :=
  match alGet s.keyIndex k with
  | none => .error .notFound
  | some _ =>
    let s1 := { s with keyIndex := s.keyIndex.filter (fun p => p.1 ≠ k) }
    let s2 := { s1 with walS := walStep s1.walS (.writeDelete k) }
    .ok { s2 with file := s2.file ++ u32le k.length ++ u32le 0 ++ k }

theorem kvAppend_fold_preserve (k : List Nat) (L : List (List Nat × List Nat))
    (hL : ∀ p ∈ L, p.1 ≠ k) :
    ∀ st : KVState,
      alGet ((L.foldl kvAppend st).keyIndex) k = alGet st.keyIndex k
      ∧ (∃ ext, (L.foldl kvAppend st).file = st.file ++ ext)
      ∧ (L.foldl kvAppend st).batch = st.batch := by
  induction L with
  | nil => intro st; exact ⟨rfl, ⟨[], by simp⟩, rfl⟩
  | cons p rest ih =>
    intro st
    have hp := hL p (by simp)
    have hrest : ∀ q ∈ rest, q.1 ≠ k := fun q hq => hL q (by simp [hq])
    have h := ih hrest (kvAppend st p)
    refine ⟨?_, ?_, h.2.2⟩
    · rw [List.foldl_cons, h.1]
      exact alGet_alSet_ne _ _ _ _ (fun he => hp he.symm)
    · obtain ⟨ext, hext⟩ := h.2.1
      exact ⟨kvRecord p.1 p.2 ++ ext, by
        rw [List.foldl_cons, hext]
        simp [kvAppend]⟩

/-- After flushing a batch whose first pair is `(k, v)` and whose remaining
pairs have other keys, `Get` finds `k` in the index at the offset of the
record written for it and reads back `v` (unless `v` is the tombstone). -/
theorem getKV_after_fold (s : KVState) (k v : List Nat) (w : WALState)
    (F : List (List Nat × List Nat)) (hF : ∀ p ∈ F, p.1 ≠ k)
    (hv : v ≠ tombstone)
    (hk : k.length < 4294967296) (hvl : v.length < 4294967296) :
    getKV (((k, v) :: F).foldl kvAppend { s with batch := [], walS := w }) k
      = .ok v := by
  rw [List.foldl_cons]
  obtain ⟨hidxF, ⟨ext, hfileF⟩, hbatchF⟩ :=
    kvAppend_fold_preserve k F hF
      (kvAppend { s with batch := [], walS := w } (k, v))
  have hidxF2 : alGet ((F.foldl kvAppend
      (kvAppend { s with batch := [], walS := w } (k, v))).keyIndex) k
      = some s.file.length := by
    rw [hidxF]
    exact alGet_alSet_self _ _ _
  have hfileF2 : (F.foldl kvAppend
      (kvAppend { s with batch := [], walS := w } (k, v))).file
      = (s.file ++ kvRecord k v) ++ ext := hfileF
  have hlenF : (F.foldl kvAppend
      (kvAppend { s with batch := [], walS := w } (k, v))).file.length
      = s.file.length + (8 + k.length + v.length) + ext.length := by
    rw [hfileF2]
    simp [length_kvRecord]
    omega
  have hregroup : (s.file ++ kvRecord k v) ++ ext
      = ((s.file ++ (u32le k.length ++ u32le v.length)) ++ (k ++ (v ++ ext))) := by
    simp [kvRecord]
  have hheader : readAt (F.foldl kvAppend
      (kvAppend { s with batch := [], walS := w } (k, v))).file s.file.length 8
      = u32le k.length ++ u32le v.length := by
    rw [hfileF2, hregroup,
      readAt_append _ _ _ _ (by simp [u32le]),
      show (8 : Nat) = ((u32le k.length ++ u32le v.length) : List Nat).length
        from by simp [u32le]]
    exact readAt_append_self _ _
  have hkey : readAt (F.foldl kvAppend
      (kvAppend { s with batch := [], walS := w } (k, v))).file
      (s.file.length + 8) k.length = k := by
    have hre : (s.file ++ kvRecord k v) ++ ext
        = ((s.file ++ (u32le k.length ++ u32le v.length)) ++ k) ++ (v ++ ext) := by
      simp [kvRecord]
    rw [hfileF2, hre, readAt_append _ _ _ _ (by simp [u32le]; omega),
      show s.file.length + 8
        = ((s.file ++ (u32le k.length ++ u32le v.length)) : List Nat).length
        from by simp [u32le]]
    exact readAt_append_self _ _
  have hval : readAt (F.foldl kvAppend
      (kvAppend { s with batch := [], walS := w } (k, v))).file
      (s.file.length + 8 + k.length) v.length = v := by
    have hre : (s.file ++ kvRecord k v) ++ ext
        = (((s.file ++ (u32le k.length ++ u32le v.length)) ++ k) ++ v) ++ ext := by
      simp [kvRecord]
    rw [hfileF2, hre, readAt_append _ _ _ _ (by simp [u32le]; omega),
      show s.file.length + 8 + k.length
        = (((s.file ++ (u32le k.length ++ u32le v.length)) ++ k) : List Nat).length
        from by simp [u32le]; omega]
    exact readAt_append_self _ _
  simp only [getKV, hbatchF, hidxF2, alGet, hheader]
  rw [show ((u32le k.length ++ u32le v.length) : List Nat).take 4 = u32le k.length
      from by simp [u32le, List.take],
    show ((u32le k.length ++ u32le v.length) : List Nat).drop 4 = u32le v.length
      from by simp [u32le, List.drop],
    leNat_u32le _ hk, leNat_u32le _ hvl]
  rw [if_neg (by omega), if_neg (by omega), if_neg (by omega)]
  rw [hkey, if_pos rfl, hval, if_neg hv]

/-- `Get` never looks at the WAL, so a state differing only in WAL content
reads identically. -/
theorem getKV_walS (st : KVState) (w : WALState) (k : List Nat) :
    getKV { st with walS := w } k = getKV st k := rfl

/-- C3 — counterexample.  `Put(k, "__deleted__")` is accepted; before the
flush, `Get(k)` returns the string from the batch, but after the flush has
moved the pair to the data file, `Get(k)` hits the tombstone comparison and
returns the "key is deleted" error instead of the written value — so the
claim's "for every key k and value v" fails at v = "__deleted__". -/
theorem c3_tombstone_counterexample :
    getKV (flushBatch (putKV openDB [97] tombstone)) [97] = .error .deleted
    ∧ getKV (flushBatch (putKV openDB [97] tombstone)) [97] ≠ .ok tombstone := by
  decide

/-- C3 — amended.  For every key `k` and every value `v` other than the
reserved tombstone `"__deleted__"` (sizes fitting the u32 header fields),
after `Put(k, v)` with no later write or delete of `k`, `Get(k)` returns `v`
both while the pair is only in the in-memory batch and after `FlushBatch`
has moved it to the data file and key index. -/
theorem c3_read_your_writes (s : KVState) (k v : List Nat)
    (hv : v ≠ tombstone)
    (hk : k.length < 4294967296) (hvl : v.length < 4294967296) :
    getKV (putKV s k v) k = .ok v
    ∧ getKV (flushBatch (putKV s k v)) k = .ok v := by
  have hbatchHit : getKV (putKV s k v) k = .ok v := by
    simp [getKV, putKV, alGet_alSet_self]
  refine ⟨hbatchHit, ?_⟩
  have hF : ∀ p ∈ s.batch.filter (fun p => p.1 ≠ k), p.1 ≠ k := by
    intro p hp
    simpa using List.of_mem_filter hp
  simp only [flushBatch, putKV, alSet, List.isEmpty_cons, Bool.false_eq_true,
    if_false]
  split
  · exact getKV_after_fold s k v _ _ hF hv hk hvl
  · exact getKV_after_fold s k v _ _ hF hv hk hvl

/-- C3 — witness: the amended theorem at `k = "a"`, `v = "b"` on a fresh
engine, before and after the flush. -/
theorem c3_read_your_writes_witness :
    (([98] : List Nat) ≠ tombstone)
    ∧ getKV (putKV openDB [97] [98]) [97] = .ok [98]
    ∧ getKV (flushBatch (putKV openDB [97] [98])) [97] = .ok [98] := by
  refine ⟨by decide, ?_, ?_⟩
  · exact (c3_read_your_writes openDB [97] [98] (by decide) (by decide)
      (by decide)).1
  · exact (c3_read_your_writes openDB [97] [98] (by decide) (by decide)
      (by decide)).2

/-- C9 — confirmed.  If `Put(k, v)` has been accepted but not yet flushed
and `k` is absent from the key index, `Delete(k)` returns "key not found"
before touching any state (the batch entry survives because `Delete` exits
on the index miss), and `Get(k)` still returns `v` from the batch. -/
theorem c9_delete_pending_key (s : KVState) (k v : List Nat)
    (hidx : alGet s.keyIndex k = none) :
    deleteKV (putKV s k v) k = .error .notFound
    ∧ getKV (putKV s k v) k = .ok v := by
  constructor
  · simp only [deleteKV, putKV]
    rw [hidx]
  · simp [getKV, putKV, alGet_alSet_self]

/-- C9 — witness: a fresh engine (empty index), `Put("a", "b")` then
`Delete("a")` errors and `Get("a")` still returns `"b"`. -/
theorem c9_delete_pending_key_witness :
    alGet openDB.keyIndex [97] = none
    ∧ deleteKV (putKV openDB [97] [98]) [97] = .error .notFound
    ∧ getKV (putKV openDB [97] [98]) [97] = .ok [98] := by
  refine ⟨by decide, ?_, ?_⟩
  · exact (c9_delete_pending_key openDB [97] [98] (by decide)).1
  · exact (c9_delete_pending_key openDB [97] [98] (by decide)).2

/-! ### Vector engine (`VectorEngineImpl`)

The current vector engine (the variant with an ID-mapped FAISS index, an
`id → offset` map and a batched persistence queue) is embedded below.
Index descriptors are `List Char`; vector elements are float32 values
represented by their 32-bit patterns. -/

/-- `strings.HasPrefix(l, p)` on character lists: does `l` start with `p`? -/
def startsWithSeq {A : Type} [DecidableEq A] : List A → List A → Bool
| [], _ => true
| _ :: _, [] => false
| a :: p, b :: l => a = b && startsWithSeq p l

/-- `strings.Contains(l, p)` on character lists. -/
def containsSeq {A : Type} [DecidableEq A] : List A → List A → Bool
| p, [] => p.isEmpty
| p, b :: rest => startsWithSeq p (b :: rest) || containsSeq p rest

/-- The value of the leading decimal digits of a list (accumulator form),
as `fmt.Sscanf`'s `%d` reads them. -/
def digitsVal : List Char → Nat → Nat
| [], acc => acc
| c :: rest, acc => if c.isDigit then digitsVal rest (10 * acc + (c.toNat - 48)) else acc

/-- `fmt.Sscanf(indexType, "IVF%d", &nlist)` on a string starting with
`IVF`: the value of the digits right after the prefix; 0 (the zero value
`nlist` keeps) when no digit follows. -/
def scanIVF (l : List Char) : Nat :=
  match l.drop 3 with
  | [] => 0
  | c :: rest => if c.isDigit then digitsVal (c :: rest) 0 else 0

/-- `requiredTrainCount` of the vector engine: `Flat` and any descriptor
starting with `HNSW` need no training; otherwise at least `nlist` for a
leading `IVF{n}` and at least 256 when the descriptor contains `PQ`. -/
def requiredTrainCount (indexType : List Char) : Nat :=
  if indexType = "Flat".toList ∨ startsWithSeq "HNSW".toList indexType = true then 0
  else
    let nlist := if startsWithSeq "IVF".toList indexType = true
      then scanIVF indexType else 0
    let needsPQ := containsSeq "PQ".toList indexType
    let minTrain := if 0 < nlist then nlist else 0
    if needsPQ = true ∧ minTrain < 256 then 256 else minTrain

theorem startsWithSeq_append_self {A : Type} [DecidableEq A] (p l : List A) :
    startsWithSeq p (p ++ l) = true := by
  induction p with
  | nil => rfl
  | cons a p ih => simp [startsWithSeq, ih]

theorem startsWithSeq_iff_append {A : Type} [DecidableEq A] (p l : List A)
    (h : startsWithSeq p l = true) : ∃ rest, l = p ++ rest := by
  induction p generalizing l with
  | nil => exact ⟨l, rfl⟩
  | cons a p ih =>
    cases l with
    | nil => simp [startsWithSeq] at h
    | cons b l =>
      simp only [startsWithSeq, Bool.and_eq_true, decide_eq_true_eq] at h
      obtain ⟨rest, hrest⟩ := ih l h.2
      exact ⟨rest, by rw [h.1, hrest]; rfl⟩

/-- C4 — counterexample.  The claim's composite rule says a descriptor
combining HNSW with PQ requires at least 256 training samples; the code
returns 0 for any descriptor starting with `HNSW`, `PQ` component or not,
because the `HasPrefix(indexType, "HNSW")` test short-circuits. -/
theorem c4_hnsw_pq_counterexample :
    requiredTrainCount "HNSW32,PQ16".toList = 0
    ∧ ¬ (256 ≤ requiredTrainCount "HNSW32,PQ16".toList) := by
  decide

/-- C4 — amended.  The required training count is 0 for `Flat` and for any
descriptor starting with `HNSW` — even when it also contains `PQ`; for a
descriptor starting with `IVF{n}`, it is at least `n`; and any descriptor
containing `PQ` that is not `Flat` and does not start with `HNSW` requires
at least 256.  (The maximum-of-components rule thus holds only for
descriptors whose first component is `IVF`, `PQ` or `Flat`; an `HNSW`
prefix forces 0.) -/
theorem c4_required_train_count :
    requiredTrainCount "Flat".toList = 0
    ∧ (∀ rest : List Char, requiredTrainCount ("HNSW".toList ++ rest) = 0)
    ∧ (∀ d : List Char, startsWithSeq "IVF".toList d = true →
        scanIVF d ≤ requiredTrainCount d)
    ∧ (∀ d : List Char, containsSeq "PQ".toList d = true →
        d ≠ "Flat".toList → startsWithSeq "HNSW".toList d = false →
        256 ≤ requiredTrainCount d) := by
  refine ⟨by decide, ?_, ?_, ?_⟩
  · intro rest
    unfold requiredTrainCount
    rw [if_pos (Or.inr (startsWithSeq_append_self _ _))]
  · intro d h
    obtain ⟨rest, hrest⟩ := startsWithSeq_iff_append _ _ h
    have hflat : ¬ (d = "Flat".toList) := by
      rw [hrest]; intro he
      have hh := congrArg (fun l => l.headD ' ') he
      simp at hh
    have hhnsw : ¬ (startsWithSeq "HNSW".toList d = true) := by
      rw [hrest]; intro he
      simp [startsWithSeq, String.toList] at he
    unfold requiredTrainCount
    rw [if_neg (by
      intro hor
      rcases hor with h1 | h2
      · exact hflat h1
      · exact hhnsw h2)]
    rw [if_pos h]
    by_cases hc : containsSeq "PQ".toList d = true ∧
        (if 0 < scanIVF d then scanIVF d else 0) < 256
    · rw [if_pos hc]
      rcases hc with ⟨_, hlt⟩
      by_cases hn : 0 < scanIVF d
      · rw [if_pos hn] at hlt
        omega
      · omega
    · rw [if_neg hc]
      by_cases hn : 0 < scanIVF d
      · rw [if_pos hn]
      · rw [if_neg hn]
        omega
  · intro d hpq hflat hhnsw
    unfold requiredTrainCount
    rw [if_neg (by
      intro hor
      rcases hor with h1 | h2
      · exact hflat h1
      · rw [hhnsw] at h2; cases h2)]
    by_cases hiv : startsWithSeq "IVF".toList d = true
    · rw [if_pos hiv]
      by_cases hlt : (if 0 < scanIVF d then scanIVF d else 0) < 256
      · rw [if_pos ⟨hpq, hlt⟩]
      · rw [if_neg (by intro hc; exact hlt hc.2)]
        omega
    · rw [if_neg hiv]
      rw [if_pos (by refine ⟨hpq, ?_⟩; simp)]

/-- C4 — witness: the amended theorem at the concrete descriptors
`HNSW32,PQ16` (gives 0), `IVF300` (gives at least 300), `PQ16` (gives at
least 256). -/
theorem c4_required_train_count_witness :
    requiredTrainCount ("HNSW".toList ++ "32,PQ16".toList) = 0
    ∧ (startsWithSeq "IVF".toList "IVF300".toList = true
        ∧ scanIVF "IVF300".toList ≤ requiredTrainCount "IVF300".toList)
    ∧ (containsSeq "PQ".toList "PQ16".toList = true
        ∧ 256 ≤ requiredTrainCount "PQ16".toList) := by
  refine ⟨?_, ⟨by decide, ?_⟩, ⟨by decide, ?_⟩⟩
  · exact c4_required_train_count.2.1 "32,PQ16".toList
  · exact c4_required_train_count.2.2.1 "IVF300".toList (by decide)
  · exact c4_required_train_count.2.2.2 "PQ16".toList (by decide) (by decide)
      (by decide)

/-- The errors of the vector engine operations. -/
inductive VecErr where
| invalidSize       -- "vector length mismatch"
| notFound          -- "ID %d not found"
| readErr           -- ReadAt returned fewer bytes than requested
| badBuffer         -- bytesToFloat32Array: size not a multiple of 4
| invalidQuerySize  -- "invalid query size"
| limsMismatch      -- "expected 1 query, got %d"
| invalidLims       -- "invalid lims"
deriving Repr, DecidableEq

/-- `float32ArrayToBytes`: little-endian 4-byte encoding of each element's
bit pattern. -/
def float32ArrayToBytes (arr : List Nat) : List Nat :=
  (arr.map u32le).flatten

/-- The 4-byte groups of a buffer, reassembled little-endian
(`bytesToFloat32Array`'s loop). -/
def decodeWords : List Nat → List Nat
| b0 :: b1 :: b2 :: b3 :: rest => leNat [b0, b1, b2, b3] :: decodeWords rest
| _ => []

def bytesToFloat32Array (buf : List Nat) : Except VecErr (List Nat) :=
  if buf.length % 4 ≠ 0 then .error .badBuffer
  else .ok (decodeWords buf)

theorem length_float32ArrayToBytes (arr : List Nat) :
    (float32ArrayToBytes arr).length = 4 * arr.length := by
  induction arr with
  | nil => rfl
  | cons x arr ih =>
    show (u32le x ++ (arr.map u32le).flatten).length = 4 * (x :: arr).length
    rw [List.length_append, show (u32le x).length = 4 from rfl,
      show ((arr.map u32le).flatten).length = (float32ArrayToBytes arr).length
        from rfl, ih, List.length_cons]
    omega

theorem decodeWords_encode (arr : List Nat) (hb : ∀ x ∈ arr, x < 4294967296) :
    decodeWords (float32ArrayToBytes arr) = arr := by
  induction arr with
  | nil => rfl
  | cons x arr ih =>
    have hx := hb x (by simp)
    have hrest : ∀ y ∈ arr, y < 4294967296 := fun y hy => hb y (by simp [hy])
    show decodeWords (u32le x ++ (arr.map u32le).flatten) = x :: arr
    rw [show (u32le x ++ (arr.map u32le).flatten)
        = x % 256 :: (x / 256 % 256) :: (x / 65536 % 256) :: (x / 16777216 % 256)
          :: (arr.map u32le).flatten from rfl]
    show leNat [x % 256, x / 256 % 256, x / 65536 % 256, x / 16777216 % 256]
        :: decodeWords ((arr.map u32le).flatten) = x :: arr
    rw [show ([x % 256, x / 256 % 256, x / 65536 % 256, x / 16777216 % 256]
        : List Nat) = u32le x from rfl, leNat_u32le x hx]
    show x :: decodeWords (float32ArrayToBytes arr) = x :: arr
    rw [ih hrest]

theorem bytesToFloat32Array_encode (arr : List Nat)
    (hb : ∀ x ∈ arr, x < 4294967296) :
    bytesToFloat32Array (float32ArrayToBytes arr) = .ok arr := by
  unfold bytesToFloat32Array
  rw [if_neg (by rw [length_float32ArrayToBytes]; omega),
    decodeWords_encode arr hb]

/-- `uint64(id)` for a signed 64-bit id, as 8 little-endian bytes. -/
def u64leInt (id : Int) : List Nat :=
  u64le (Int.toNat (id % 18446744073709551616))

theorem length_u64leInt (id : Int) : (u64leInt id).length = 8 := rfl

/-- The state of an open `VectorEngineImpl`: dimension, descriptor, the
FAISS index (an opaque ID-mapped container: a map from external id to the
vector it holds, plus its trained flag), the training pool and pending-add
map used before training, the batched persistence queue, the append-only
data file with its `id → offset` map, and the WAL. -/
structure VecState where
  maxVectorSize : Nat
  indexType : List Char
  isTrained : Bool
  annIndex : List (Int × List Nat)
  trainPool : List (List Nat)
  pendingAdd : List (Int × List Nat)
  persistBuf : List (Int × List Nat)
  dataFile : List Nat
  fileOffsets : List (Int × Nat)
  walS : WALState
deriving Repr, DecidableEq

/-- `NewVectorEngine` over empty files: nothing to rebuild or replay.  The
factory index starts untrained; for descriptors that need no training the
flag is never consulted because `requiredTrainCount = 0` short-circuits. -/
def newVectorEngine (dim : Nat) (indexDesc : List Char) : VecState :=
  ⟨dim, indexDesc, false, [], [], [], [], [], [], openWAL⟩

/-- `insertAfterWAL`: when the index is trained (or needs no training),
replace any existing row for the id in the ANN index, add the pair, and
enqueue it on the persistence queue; otherwise stage it in the pending-add
map and the training pool, and once the pool reaches the threshold, train,
bulk-add and enqueue everything pending. -/
def insertAfterWAL (s : VecState) (id : Int) (vector : List Nat) : VecState :=
  let nTrain := requiredTrainCount s.indexType
  if nTrain = 0 ∨ s.isTrained = true then
    { s with annIndex := alSet s.annIndex id vector,
             persistBuf := s.persistBuf ++ [(id, vector)] }
  else
    let pending := alSet s.pendingAdd id vector
    let pool := s.trainPool ++ [vector]
    if nTrain ≤ pool.length then
      { s with isTrained := true,
               annIndex := pending.foldl (fun ix p => alSet ix p.1 p.2) s.annIndex,
               persistBuf := s.persistBuf ++ pending,
               pendingAdd := [],
               trainPool := [] }
    else
      { s with pendingAdd := pending, trainPool := pool }

/-- `InsertVector`: validate the dimension, frame a WAL entry (8-byte id
key, float bytes value), ingest via `insertAfterWAL`, then `MarkCommitted`
on the WAL. -/
def insertVector (s : VecState) (id : Int) (vector : List Nat) :
    Except VecErr VecState :=
  if vector.length ≠ s.maxVectorSize then .error .invalidSize
  else
    let s1 : VecState := { s with
      walS := walStep s.walS (.writeEntry (u64leInt id) (float32ArrayToBytes vector)) }
    let s2 : VecState := insertAfterWAL s1 id vector
    .ok { s2 with walS := walStep s2.walS .markCommitted }

/-- `appendToDataFile`: seek to the end, write the record
`[u64 id LE][dim × u32 float bits LE]` and remember its offset for
`GetVectorByID`. -/
def appendToDataFile (s : VecState) (id : Int) (vector : List Nat) : VecState :=
  { s with
    dataFile := s.dataFile ++ (u64leInt id ++ float32ArrayToBytes vector),
    fileOffsets := alSet s.fileOffsets id s.dataFile.length }

/-- `flushData`: drain the persistence queue, appending each queued record
to the data file under the engine lock (then a single fsync). -/
def flushData (s : VecState) : VecState :=
  let buf := s.persistBuf
  let s1 : VecState := { s with persistBuf := [] }
  buf.foldl (fun st p => appendToDataFile st p.1 p.2) s1

/-- `GetVectorByID`: consult the `id → offset` map (only it — neither the
persistence queue nor the pending-add map); read the fixed-size record at
the offset and decode the vector, ignoring the 8-byte id prefix. -/
def getVectorByID (s : VecState) (id : Int) : Except VecErr (List Nat) :=
  match alGet s.fileOffsets id with
  | none => .error .notFound
  | some off =>
    if s.dataFile.length < off + (8 + 4 * s.maxVectorSize) then .error .readErr
    else bytesToFloat32Array
      ((readAt s.dataFile off (8 + 4 * s.maxVectorSize)).drop 8)

/-- Run a list of `InsertVector` calls in order, stopping at the first
error. -/
def applyInserts (s : VecState) : List (Int × List Nat) → Except VecErr VecState
| [] => .ok s
| p :: rest =>
  match insertVector s p.1 p.2 with
  | .error e => .error e
  | .ok s2 => applyInserts s2 rest

/-- The value of the most recent insert for an id. -/
def lastVal {A B : Type} [DecidableEq A] : List (A × B) → A → Option B
| [], _ => none
| p :: rest, k =>
  match lastVal rest k with
  | some v => some v
  | none => if p.1 = k then some p.2 else none

theorem lastVal_none_not_key {A B : Type} [DecidableEq A]
    (L : List (A × B)) (k : A) (h : lastVal L k = none) :
    ∀ q ∈ L, q.1 ≠ k := by
  induction L with
  | nil => intro q hq; cases hq
  | cons p rest ih =>
    intro q hq
    unfold lastVal at h
    cases hm : lastVal rest k with
    | some v => rw [hm] at h; cases h
    | none =>
      rw [hm] at h
      rcases List.mem_cons.mp hq with hq | hq
      · subst hq
        intro he
        rw [if_pos he] at h
        cases h
      · exact ih hm q hq

theorem vecAppend_fold_preserve (id : Int) (L : List (Int × List Nat))
    (hL : ∀ q ∈ L, q.1 ≠ id) :
    ∀ st : VecState,
      alGet ((L.foldl (fun a p => appendToDataFile a p.1 p.2) st).fileOffsets) id
        = alGet st.fileOffsets id
      ∧ (∃ ext, (L.foldl (fun a p => appendToDataFile a p.1 p.2) st).dataFile
          = st.dataFile ++ ext)
      ∧ (L.foldl (fun a p => appendToDataFile a p.1 p.2) st).maxVectorSize
          = st.maxVectorSize := by
  induction L with
  | nil => intro st; exact ⟨rfl, ⟨[], by simp⟩, rfl⟩
  | cons p rest ih =>
    intro st
    have hp := hL p (by simp)
    have hrest : ∀ q ∈ rest, q.1 ≠ id := fun q hq => hL q (by simp [hq])
    have h := ih hrest (appendToDataFile st p.1 p.2)
    refine ⟨?_, ?_, h.2.2⟩
    · rw [List.foldl_cons, h.1]
      exact alGet_alSet_ne _ _ _ _ (fun he => hp he.symm)
    · obtain ⟨ext, hext⟩ := h.2.1
      exact ⟨(u64leInt p.1 ++ float32ArrayToBytes p.2) ++ ext, by
        rw [List.foldl_cons, hext]
        simp [appendToDataFile]⟩

/-- After draining a queue `L` through `appendToDataFile`, `GetVectorByID`
returns the most recently queued vector for each id in `L`, bit for bit. -/
theorem vec_flushFold_get (dim : Nat) (L : List (Int × List Nat)) :
    ∀ st : VecState, st.maxVectorSize = dim →
      (∀ p ∈ L, p.2.length = dim ∧ ∀ x ∈ p.2, x < 4294967296) →
      ∀ (id : Int) (v : List Nat), lastVal L id = some v →
        getVectorByID (L.foldl (fun a p => appendToDataFile a p.1 p.2) st) id
          = .ok v := by
  induction L with
  | nil => intro st _ _ id v h; cases h
  | cons p rest ih =>
    intro st hdim hall id v hlast
    rw [List.foldl_cons]
    cases hm : lastVal rest id with
    | some v2 =>
      have hv : v2 = v := by
        unfold lastVal at hlast
        rw [hm] at hlast
        cases hlast
        rfl
      subst hv
      exact ih (appendToDataFile st p.1 p.2) hdim
        (fun q hq => hall q (by simp [hq])) id v2 hm
    | none =>
      have hvp : p.1 = id ∧ p.2 = v := by
        unfold lastVal at hlast
        rw [hm] at hlast
        by_cases hp : p.1 = id
        · rw [if_pos hp] at hlast
          cases hlast
          exact ⟨hp, rfl⟩
        · rw [if_neg hp] at hlast
          cases hlast
      obtain ⟨hpid, hpv⟩ := hvp
      have hrest := lastVal_none_not_key rest id hm
      obtain ⟨hoffs, ⟨ext, hfile⟩, hmax⟩ :=
        vecAppend_fold_preserve id rest hrest (appendToDataFile st p.1 p.2)
      have hlen : p.2.length = dim := (hall p (by simp)).1
      have hbits : ∀ x ∈ p.2, x < 4294967296 := (hall p (by simp)).2
      have hoffs2 : alGet ((rest.foldl (fun a q => appendToDataFile a q.1 q.2)
          (appendToDataFile st p.1 p.2)).fileOffsets) id
          = some st.dataFile.length := by
        rw [hoffs]
        show alGet (alSet st.fileOffsets p.1 st.dataFile.length) id = _
        rw [hpid]
        exact alGet_alSet_self _ _ _
      have hfile2 : (rest.foldl (fun a q => appendToDataFile a q.1 q.2)
          (appendToDataFile st p.1 p.2)).dataFile
          = (st.dataFile ++ (u64leInt p.1 ++ float32ArrayToBytes p.2)) ++ ext := by
        rw [hfile]
        rfl
      have hreclen : (u64leInt p.1 ++ float32ArrayToBytes p.2).length
          = 8 + 4 * dim := by
        rw [List.length_append, length_u64leInt, length_float32ArrayToBytes, hlen]
      have hmax2 : (rest.foldl (fun a q => appendToDataFile a q.1 q.2)
          (appendToDataFile st p.1 p.2)).maxVectorSize = dim := by
        rw [hmax]
        exact hdim
      simp only [getVectorByID, hoffs2, hmax2]
      rw [if_neg (by
        rw [hfile2]
        simp only [List.length_append, hreclen]
        omega)]
      rw [hfile2, readAt_append _ _ _ _ (by
          simp only [List.length_append, hreclen]
          omega),
        show 8 + 4 * dim = (u64leInt p.1 ++ float32ArrayToBytes p.2).length
          from hreclen.symm]
      rw [readAt_append_self]
      rw [show (8 : Nat) = (u64leInt p.1).length from rfl, List.drop_left]
      rw [← hpv]
      exact bytesToFloat32Array_encode p.2 hbits

/-- When the descriptor needs no training, every `InsertVector` takes the
trained branch: it updates the ANN index, appends to the persistence queue
and leaves the data file and offset map untouched. -/
theorem insertVector_trained (st : VecState) (id : Int) (v : List Nat)
    (hd : requiredTrainCount st.indexType = 0)
    (hlen : v.length = st.maxVectorSize) :
    insertVector st id v = .ok { st with
      annIndex := alSet st.annIndex id v,
      persistBuf := st.persistBuf ++ [(id, v)],
      walS := walStep (walStep st.walS
        (.writeEntry (u64leInt id) (float32ArrayToBytes v))) .markCommitted } := by
  unfold insertVector
  rw [if_neg (by rw [hlen]; exact fun h => h rfl)]
  unfold insertAfterWAL
  dsimp only
  rw [hd, if_pos (Or.inl rfl)]

theorem applyInserts_trained (dim : Nat) (dsc : List Char)
    (hd : requiredTrainCount dsc = 0) (L : List (Int × List Nat)) :
    ∀ st : VecState, st.indexType = dsc → st.maxVectorSize = dim →
      (∀ p ∈ L, p.2.length = dim) →
      ∃ t : VecState, applyInserts st L = .ok t
        ∧ t.persistBuf = st.persistBuf ++ L
        ∧ t.maxVectorSize = dim := by
  induction L with
  | nil => intro st h1 h2 _; exact ⟨st, rfl, by simp, h2⟩
  | cons p rest ih =>
    intro st h1 h2 h3
    have hins := insertVector_trained st p.1 p.2 (by rw [h1]; exact hd)
      (by rw [(h3 p (by simp)), h2])
    obtain ⟨t, ht, hbuf, hdim⟩ := ih
      { st with
        annIndex := alSet st.annIndex p.1 p.2,
        persistBuf := st.persistBuf ++ [(p.1, p.2)],
        walS := walStep (walStep st.walS
          (.writeEntry (u64leInt p.1) (float32ArrayToBytes p.2))) .markCommitted }
      h1 h2 (fun q hq => h3 q (by simp [hq]))
    refine ⟨t, ?_, ?_, hdim⟩
    · unfold applyInserts
      rw [hins]
      exact ht
    · rw [hbuf]
      simp

/-- C2 — counterexample.  On a fresh Flat engine of dimension 1,
`InsertVector(1, [v])` succeeds (the pair goes to the ANN index and the
batched persistence queue), but an immediate `GetVectorByID(1)` — before
the background persistence flush has drained the queue — returns the
"ID 1 not found" error, because `GetVectorByID` consults only the
`id → offset` map, which is populated at flush time. -/
theorem c2_get_before_flush_counterexample :
    (insertVector (newVectorEngine 1 "Flat".toList) 1 [7]).map
        (fun s => getVectorByID s 1)
      = .ok (.error .notFound)
    ∧ (insertVector (newVectorEngine 1 "Flat".toList) 1 [7]).map
        (fun s => getVectorByID s 1)
      ≠ .ok (.ok [7]) := by
  decide

/-- C2 — amended.  On an engine whose descriptor requires no training, for
every sequence of dimension-correct inserts, once the persistence queue has
been flushed to the data file, `GetVectorByID(id)` returns the vector of
the most recent `InsertVector` for that id (bit patterns equal element-wise
— so duplicate-id inserts are last-write-wins); before the flush,
`GetVectorByID` reports ids of unflushed inserts as not found. -/
theorem c2_insert_flush_get (dsc : List Char) (hd : requiredTrainCount dsc = 0)
    (dim : Nat) (inserts : List (Int × List Nat))
    (hall : ∀ p ∈ inserts, p.2.length = dim ∧ ∀ x ∈ p.2, x < 4294967296)
    (id : Int) (v : List Nat) (hlast : lastVal inserts id = some v)
    (s : VecState) (hs : applyInserts (newVectorEngine dim dsc) inserts = .ok s) :
    getVectorByID (flushData s) id = .ok v := by
  obtain ⟨t, ht, hbuf, hdim⟩ := applyInserts_trained dim dsc hd inserts
    (newVectorEngine dim dsc) rfl rfl (fun p hp => (hall p hp).1)
  rw [hs] at ht
  have hts : t = s := by cases ht; rfl
  subst hts
  show getVectorByID (t.persistBuf.foldl (fun a p => appendToDataFile a p.1 p.2)
    { t with persistBuf := [] }) id = .ok v
  rw [hbuf]
  exact vec_flushFold_get dim ((newVectorEngine dim dsc).persistBuf ++ inserts)
    { t with persistBuf := [] } hdim
    (fun p hp => hall p (by simpa [newVectorEngine] using hp))
    id v (by simpa [newVectorEngine] using hlast)

/-- The engine state after inserting `(1, [5])` then `(1, [6])` into a
fresh 1-dimensional Flat engine. -/
def c2WitnessState : VecState :=
  match applyInserts (newVectorEngine 1 "Flat".toList)
      [((1 : Int), [5]), ((1 : Int), [6])] with
  | .ok s => s
  | .error _ => newVectorEngine 1 "Flat".toList

/-- C2 — witness: two inserts with the same id on a fresh Flat engine;
after the flush, `GetVectorByID` returns the second vector. -/
theorem c2_insert_flush_get_witness :
    requiredTrainCount "Flat".toList = 0
    ∧ lastVal [((1 : Int), [5]), ((1 : Int), [6])] 1 = some [6]
    ∧ getVectorByID (flushData c2WitnessState) 1 = .ok [6] :=
  ⟨by decide, by decide,
   c2_insert_flush_get "Flat".toList (by decide) 1
     [((1 : Int), [5]), ((1 : Int), [6])] (by decide) 1 [6] (by decide)
     c2WitnessState (by decide)⟩

/-! ### Range search (`RangeSearch`)

The FAISS call returns flat `labels` and `distances` arrays plus a `lims`
array of per-query slice bounds.  `RangeSearch` validates the query
dimension, requires exactly one query in `lims`, bounds-checks the slice,
copies it out and sorts it by ascending distance.  Distances are float32
in the source; since `sort.Slice` only compares them with `<`, they are
modelled by a linearly ordered stand-in (`Int`), which is faithful for
every comparison on non-NaN floats.  The sort itself is modelled by
insertion sort over the same ascending-distance comparator (`sort.Slice`
guarantees no particular tie order, and neither does this model). -/

/-- The ascending-distance ordering on (id, distance) result pairs. -/
def distLE (a b : Int × Int) : Prop := a.2 ≤ b.2

instance : DecidableRel distLE :=
  fun a b => inferInstanceAs (Decidable (a.2 ≤ b.2))

instance : IsTotal (Int × Int) distLE := ⟨fun a b => Int.le_total a.2 b.2⟩

instance : IsTrans (Int × Int) distLE := ⟨fun _ _ _ hab hbc => le_trans hab hbc⟩

/-- `RangeSearch` given the library's response `(labels, dists, lims)` for
a single query. -/
def rangeSearch (maxVectorSize : Nat) (query : List Nat) (labels : List Int)
    (dists : List Int) (lims : List Nat) : Except VecErr (List (Int × Int)) :=
  if query.length ≠ maxVectorSize then .error .invalidQuerySize
  else
    match lims with
    | [start, en] =>
      if en < start ∨ labels.length < en ∨ dists.length < en then
        .error .invalidLims
      else
        .ok (List.insertionSort distLE
          (((labels.drop start).take (en - start)).zip
            ((dists.drop start).take (en - start))))
    | _ => .error .limsMismatch

/-- C5 — confirmed.  Whenever `RangeSearch` succeeds on a query of the
correct dimension, the returned (id, distance) list is sorted in
non-decreasing order of distance. -/
theorem c5_range_search_sorted (maxVectorSize : Nat) (query : List Nat)
    (labels dists : List Int) (lims : List Nat) (out : List (Int × Int))
    (h : rangeSearch maxVectorSize query labels dists lims = .ok out) :
    List.Sorted distLE out
    ∧ List.Sorted (· ≤ ·) (out.map Prod.snd) := by
  have hsorted : List.Sorted distLE out := by
    unfold rangeSearch at h
    split at h
    · cases h
    · split at h
      · split at h
        · cases h
        · cases h
          exact List.sorted_insertionSort distLE _
      · cases h
  exact ⟨hsorted, List.Pairwise.map _ (fun a b hab => hab) hsorted⟩

/-- C5 — witness: a concrete successful range search whose output is the
distance-sorted slice. -/
theorem c5_range_search_sorted_witness :
    rangeSearch 2 [1, 2] [10, 20, 30] [7, 3, 9] [0, 2]
      = .ok [((20 : Int), (3 : Int)), ((10 : Int), (7 : Int))]
    ∧ List.Sorted distLE [((20 : Int), (3 : Int)), ((10 : Int), (7 : Int))] :=
  ⟨by decide,
   (c5_range_search_sorted 2 [1, 2] [10, 20, 30] [7, 3, 9] [0, 2]
     [((20 : Int), (3 : Int)), ((10 : Int), (7 : Int))] (by decide)).1⟩

/-! ### Connection manager (`ConnectionManager`)

`UpdateLimit` validates a requested limit and, if valid, sends it on a
buffered channel of capacity 10 (`limitUpdateChan`, non-blocking send: a
full buffer is a third rejection).  The `dynamicLimitManager` goroutine
drains the channel, and for each value `updateLimit` replaces
`maxConnections`, rebuilds the semaphore (transferring up to `active`
permits — `active` itself is unchanged) and writes the new limit through
`SaveConnectionLimit` to the persistent artifact. -/

structure ConnState where
  maxConnections : Int
  activeConnections : Int
  limitUpdateChan : List Int
  savedLimit : Option Int
deriving Repr, DecidableEq

inductive LimitErr where
| notPositive  -- "connection limit must be positive"
| belowActive  -- "cannot set limit to %d when %d connections are active"
| channelFull  -- "limit update channel is full, try again later"
deriving Repr, DecidableEq

/-- `UpdateLimit`: validate, then non-blocking send on the buffered
channel. -/
def updateLimitReq (s : ConnState) (newLimit : Int) : Except LimitErr ConnState :=
  if newLimit ≤ 0 then .error .notPositive
  else if newLimit < s.activeConnections then .error .belowActive
  else if 10 ≤ s.limitUpdateChan.length then .error .channelFull
  else .ok { s with limitUpdateChan := s.limitUpdateChan ++ [newLimit] }

/-- `updateLimit` as run by the manager for one queued value: the new
limit becomes the maximum and is saved persistently. -/
def applyLimitUpdate (s : ConnState) (newLimit : Int) : ConnState :=
  { s with maxConnections := newLimit, savedLimit := some newLimit }

/-- The `dynamicLimitManager` draining the whole queue. -/
def drainLimitQueue (s : ConnState) : ConnState :=
  s.limitUpdateChan.foldl applyLimitUpdate { s with limitUpdateChan := [] }

/-- C7 — counterexample.  With ten updates already queued (and not yet
processed), a request for limit 5 with 0 active connections is positive
and not below `active`, yet it is rejected: the non-blocking channel send
hits the `default` branch and `UpdateLimit` returns "limit update channel
is full". -/
theorem c7_channel_full_counterexample :
    updateLimitReq ⟨100, 0, [1, 2, 3, 4, 5, 6, 7, 8, 9, 10], none⟩ 5
      = .error .channelFull
    ∧ ¬ ((5 : Int) ≤ 0)
    ∧ ¬ ((5 : Int)
        < (⟨100, 0, [1, 2, 3, 4, 5, 6, 7, 8, 9, 10], none⟩
            : ConnState).activeConnections) := by
  decide

/-- C7 — amended.  A requested limit `n` is rejected (state unchanged)
exactly when `n` is not positive, `n` is below the current number of
active connections, or the buffered update channel (capacity 10) is full;
an accepted request is queued, and once the limit manager drains the
queue, `n` is the governor's maximum and has been written through to the
persistent limit artifact. -/
theorem c7_update_limit (s : ConnState) (n : Int) :
    ((∃ e, updateLimitReq s n = .error e)
      ↔ (n ≤ 0 ∨ n < s.activeConnections ∨ 10 ≤ s.limitUpdateChan.length))
    ∧ (∀ s2 : ConnState, updateLimitReq s n = .ok s2 →
        s2.maxConnections = s.maxConnections
        ∧ s2.limitUpdateChan = s.limitUpdateChan ++ [n]
        ∧ (drainLimitQueue s2).maxConnections = n
        ∧ (drainLimitQueue s2).savedLimit = some n) := by
  constructor
  · constructor
    · rintro ⟨e, he⟩
      unfold updateLimitReq at he
      by_cases h1 : n ≤ 0
      · exact Or.inl h1
      · rw [if_neg h1] at he
        by_cases h2 : n < s.activeConnections
        · exact Or.inr (Or.inl h2)
        · rw [if_neg h2] at he
          by_cases h3 : 10 ≤ s.limitUpdateChan.length
          · exact Or.inr (Or.inr h3)
          · rw [if_neg h3] at he
            cases he
    · intro h
      unfold updateLimitReq
      by_cases h1 : n ≤ 0
      · exact ⟨.notPositive, by rw [if_pos h1]⟩
      · rw [if_neg h1]
        by_cases h2 : n < s.activeConnections
        · exact ⟨.belowActive, by rw [if_pos h2]⟩
        · rw [if_neg h2]
          by_cases h3 : 10 ≤ s.limitUpdateChan.length
          · exact ⟨.channelFull, by rw [if_pos h3]⟩
          · rcases h with h | h | h
            · exact absurd h h1
            · exact absurd h h2
            · exact absurd h h3
  · intro s2 h
    unfold updateLimitReq at h
    by_cases h1 : n ≤ 0
    · rw [if_pos h1] at h; cases h
    · rw [if_neg h1] at h
      by_cases h2 : n < s.activeConnections
      · rw [if_pos h2] at h; cases h
      · rw [if_neg h2] at h
        by_cases h3 : 10 ≤ s.limitUpdateChan.length
        · rw [if_pos h3] at h; cases h
        · rw [if_neg h3] at h
          cases h
          refine ⟨rfl, rfl, ?_, ?_⟩
          · unfold drainLimitQueue
            rw [show ({ s with limitUpdateChan := s.limitUpdateChan ++ [n] }
                : ConnState).limitUpdateChan = s.limitUpdateChan ++ [n] from rfl,
              List.foldl_append]
            rfl
          · unfold drainLimitQueue
            rw [show ({ s with limitUpdateChan := s.limitUpdateChan ++ [n] }
                : ConnState).limitUpdateChan = s.limitUpdateChan ++ [n] from rfl,
              List.foldl_append]
            rfl

/-- C7 — witness: from a state with limit 10, 2 active connections and an
empty queue, requesting limit 5 is accepted and, once processed, sets and
persists 5. -/
theorem c7_update_limit_witness :
    updateLimitReq ⟨10, 2, [], none⟩ 5 = .ok ⟨10, 2, [5], none⟩
    ∧ (drainLimitQueue ⟨10, 2, [5], none⟩).maxConnections = 5
    ∧ (drainLimitQueue ⟨10, 2, [5], none⟩).savedLimit = some 5 :=
  ⟨by decide,
   ((c7_update_limit ⟨10, 2, [], none⟩ 5).2 ⟨10, 2, [5], none⟩ (by decide)).2.2.1,
   ((c7_update_limit ⟨10, 2, [], none⟩ 5).2 ⟨10, 2, [5], none⟩ (by decide)).2.2.2⟩

/-! ### Identity and authorization (`internal/auth/manager.go`) -/

/-- Modelled from the spec: the role constants `RoleAdmin`, `RoleRead`,
`RoleWrite` of the auth package, whose defining file is missing from the
snapshot (spec §4.6: role is `admin`/`user`, permission values are
`read`/`write`). -/
def roleAdmin : List Char := "admin".toList

def roleRead : List Char := "read".toList

def roleWrite : List Char := "write".toList

/-- A user as the access checks see it: role plus the per-space permission
map. -/
structure User where
  role : List Char
  permissions : List (List Char × List Char)
deriving Repr, DecidableEq

/-- `HasRole`: admins satisfy every check; otherwise look the space up in
the user's permissions — `write` satisfies `write` and `read`, `read`
satisfies only `read`. -/
def hasRole (u : User) (space required : List Char) : Bool :=
  if u.role = roleAdmin then true
  else
    match alGet u.permissions space with
    | none => false
    | some r =>
      if required = roleRead then decide (r = roleRead) || decide (r = roleWrite)
      else if required = roleWrite then decide (r = roleWrite)
      else if required = roleAdmin then decide (u.role = roleAdmin)
      else false

/-- The per-command access switch of `handleConnection`, on the uppercased
command type: `true` means the query is handed to the query engine,
`false` means the loop writes a permission-denied error line and never
invokes the engine operation. -/
def commandAllowed (u : User) (cmdType space : List Char) : Bool :=
  if cmdType = "CREATE_SPACE".toList ∨ cmdType = "LIST_SPACES".toList then
    decide (u.role = roleAdmin)
  else if cmdType = "PUT".toList ∨ cmdType = "DELETE".toList then
    hasRole u space roleWrite
  else if cmdType = "GET".toList then
    hasRole u space roleRead || hasRole u space roleWrite
  else if cmdType = "INSERT_VECTOR".toList then
    decide (u.role = roleAdmin) || hasRole u space roleWrite
  else if cmdType = "SEARCH_TOPK".toList ∨ cmdType = "GET_VECTOR".toList
      ∨ cmdType = "RANGE_SEARCH".toList then
    decide (u.role = roleAdmin) || hasRole u space roleRead
      || hasRole u space roleWrite
  else true

theorem hasRole_write_nonadmin (u : User) (space : List Char)
    (h : u.role ≠ roleAdmin) :
    hasRole u space roleWrite = true ↔ alGet u.permissions space = some roleWrite := by
  unfold hasRole
  rw [if_neg h]
  cases hg : alGet u.permissions space with
  | none => simp
  | some r =>
    dsimp only
    simp
    intro hc
    exact absurd hc (by decide)

theorem hasRole_read_nonadmin (u : User) (space : List Char)
    (h : u.role ≠ roleAdmin) :
    hasRole u space roleRead = true
      ↔ (alGet u.permissions space = some roleRead
        ∨ alGet u.permissions space = some roleWrite) := by
  unfold hasRole
  rw [if_neg h]
  cases hg : alGet u.permissions space with
  | none => simp
  | some r =>
    dsimp only
    simp

theorem hasRole_admin (u : User) (space required : List Char)
    (h : u.role = roleAdmin) : hasRole u space required = true := by
  unfold hasRole
  rw [if_pos h]

/-- C6 — confirmed.  In the authenticated command loop, for a non-admin
user: PUT, DELETE and INSERT_VECTOR on a space are dispatched exactly when
the user has `write` permission on it; GET, GET_VECTOR, SEARCH_TOPK and
RANGE_SEARCH exactly when the user has `read` or `write` permission;
otherwise the loop answers with a permission-denied error and the engine
operation is never invoked.  An admin passes all seven checks. -/
theorem c6_permission_gate (u : User) (space : List Char) :
    (u.role ≠ roleAdmin →
      ((commandAllowed u "PUT".toList space = true
          ↔ alGet u.permissions space = some roleWrite)
        ∧ (commandAllowed u "DELETE".toList space = true
          ↔ alGet u.permissions space = some roleWrite)
        ∧ (commandAllowed u "INSERT_VECTOR".toList space = true
          ↔ alGet u.permissions space = some roleWrite)
        ∧ (commandAllowed u "GET".toList space = true
          ↔ (alGet u.permissions space = some roleRead
            ∨ alGet u.permissions space = some roleWrite))
        ∧ (commandAllowed u "SEARCH_TOPK".toList space = true
          ↔ (alGet u.permissions space = some roleRead
            ∨ alGet u.permissions space = some roleWrite))
        ∧ (commandAllowed u "GET_VECTOR".toList space = true
          ↔ (alGet u.permissions space = some roleRead
            ∨ alGet u.permissions space = some roleWrite))
        ∧ (commandAllowed u "RANGE_SEARCH".toList space = true
          ↔ (alGet u.permissions space = some roleRead
            ∨ alGet u.permissions space = some roleWrite))))
    ∧ (u.role = roleAdmin →
        commandAllowed u "PUT".toList space = true
        ∧ commandAllowed u "DELETE".toList space = true
        ∧ commandAllowed u "INSERT_VECTOR".toList space = true
        ∧ commandAllowed u "GET".toList space = true
        ∧ commandAllowed u "SEARCH_TOPK".toList space = true
        ∧ commandAllowed u "GET_VECTOR".toList space = true
        ∧ commandAllowed u "RANGE_SEARCH".toList space = true) := by
  constructor
  · intro h
    have hw := hasRole_write_nonadmin u space h
    have hr := hasRole_read_nonadmin u space h
    have hna : decide (u.role = roleAdmin) = false := by
      simpa using h
    refine ⟨?_, ?_, ?_, ?_, ?_, ?_, ?_⟩
    · show hasRole u space roleWrite = true ↔ _
      exact hw
    · show hasRole u space roleWrite = true ↔ _
      exact hw
    · show (decide (u.role = roleAdmin) || hasRole u space roleWrite) = true ↔ _
      rw [hna, Bool.false_or]
      exact hw
    · show (hasRole u space roleRead || hasRole u space roleWrite) = true ↔ _
      rw [Bool.or_eq_true, hw, hr]
      constructor
      · rintro (h1 | h1)
        · exact h1
        · exact Or.inr h1
      · intro h1
        exact Or.inl h1
    · show (decide (u.role = roleAdmin) || hasRole u space roleRead
          || hasRole u space roleWrite) = true ↔ _
      rw [hna, Bool.false_or, Bool.or_eq_true, hw, hr]
      constructor
      · rintro (h1 | h1)
        · exact h1
        · exact Or.inr h1
      · intro h1
        exact Or.inl h1
    · show (decide (u.role = roleAdmin) || hasRole u space roleRead
          || hasRole u space roleWrite) = true ↔ _
      rw [hna, Bool.false_or, Bool.or_eq_true, hw, hr]
      constructor
      · rintro (h1 | h1)
        · exact h1
        · exact Or.inr h1
      · intro h1
        exact Or.inl h1
    · show (decide (u.role = roleAdmin) || hasRole u space roleRead
          || hasRole u space roleWrite) = true ↔ _
      rw [hna, Bool.false_or, Bool.or_eq_true, hw, hr]
      constructor
      · rintro (h1 | h1)
        · exact h1
        · exact Or.inr h1
      · intro h1
        exact Or.inl h1
  · intro h
    have hw := hasRole_admin u space roleWrite h
    have hr := hasRole_admin u space roleRead h
    refine ⟨hw, hw, ?_, ?_, ?_, ?_, ?_⟩
    · show (decide (u.role = roleAdmin) || hasRole u space roleWrite) = true
      rw [hw, Bool.or_true]
    · show (hasRole u space roleRead || hasRole u space roleWrite) = true
      rw [hw, Bool.or_true]
    · show (decide (u.role = roleAdmin) || hasRole u space roleRead
          || hasRole u space roleWrite) = true
      rw [hw, Bool.or_true]
    · show (decide (u.role = roleAdmin) || hasRole u space roleRead
          || hasRole u space roleWrite) = true
      rw [hw, Bool.or_true]
    · show (decide (u.role = roleAdmin) || hasRole u space roleRead
          || hasRole u space roleWrite) = true
      rw [hw, Bool.or_true]

/-- C6 — witness: a non-admin user with `read` on space `s1`: GET is
dispatched, PUT is denied; an admin passes the PUT check. -/
theorem c6_permission_gate_witness :
    (⟨"user".toList, [("s1".toList, "read".toList)]⟩ : User).role ≠ roleAdmin
    ∧ commandAllowed ⟨"user".toList, [("s1".toList, "read".toList)]⟩
        "GET".toList "s1".toList = true
    ∧ commandAllowed ⟨"user".toList, [("s1".toList, "read".toList)]⟩
        "PUT".toList "s1".toList = false
    ∧ commandAllowed ⟨"admin".toList, []⟩ "PUT".toList "s1".toList = true := by
  refine ⟨by decide, ?_, ?_, ?_⟩
  · exact ((c6_permission_gate ⟨"user".toList, [("s1".toList, "read".toList)]⟩
      "s1".toList).1 (by decide)).2.2.2.1.mpr (by decide)
  · have hiff := ((c6_permission_gate ⟨"user".toList,
        [("s1".toList, "read".toList)]⟩ "s1".toList).1 (by decide)).1
    cases hb : commandAllowed ⟨"user".toList, [("s1".toList, "read".toList)]⟩
        "PUT".toList "s1".toList
    · rfl
    · exact absurd (hiff.mp hb) (by decide)
  · exact ((c6_permission_gate ⟨"admin".toList, []⟩ "s1".toList).2 (by decide)).1

/-- `bcrypt.DefaultCost` of `golang.org/x/crypto/bcrypt` (v0.38.0, the
module pinned in go.mod): the cost every password-hashing call site of
the auth manager passes to `GenerateFromPassword`. -/
def bcryptDefaultCost : Nat := 10

/-- A bcrypt hash as stored, abstracted to the cost it records and the
password it certifies. -/
structure BcryptHash where
  cost : Nat
  password : List Char
deriving Repr, DecidableEq

/-- `bcrypt.GenerateFromPassword(password, cost)`. -/
def generateFromPassword (password : List Char) (cost : Nat) : BcryptHash :=
  ⟨cost, password⟩

inductive AuthErr where
| userExists
| userNotFound
deriving Repr, DecidableEq

/-- `CreateUser`: reject an existing username, otherwise store the user
with a hash generated at `bcrypt.DefaultCost`. -/
def createUser (store : List (List Char × BcryptHash))
    (username password : List Char) :
    Except AuthErr (List (List Char × BcryptHash)) :=
  match alGet store username with
  | some _ => .error .userExists
  | none => .ok (alSet store username
      (generateFromPassword password bcryptDefaultCost))

/-- `UpdateUserPassword`: reject a missing username, otherwise replace the
stored hash with one generated at `bcrypt.DefaultCost`. -/
def updateUserPassword (store : List (List Char × BcryptHash))
    (username password : List Char) :
    Except AuthErr (List (List Char × BcryptHash)) :=
  match alGet store username with
  | none => .error .userNotFound
  | some _ => .ok (alSet store username
      (generateFromPassword password bcryptDefaultCost))

/-- `bootstrapAdmin`: seed the empty store with the initial admin record,
hashed at `bcrypt.DefaultCost`. -/
def bootstrapAdmin (username password : List Char) :
    List (List Char × BcryptHash) :=
  alSet [] username (generateFromPassword password bcryptDefaultCost)

/-- C8 — counterexample.  `bcrypt.DefaultCost` is 10, so the hash
`CreateUser` persists for a fresh user records cost 10, not the claimed
cost 12. -/
theorem c8_cost_counterexample :
    bcryptDefaultCost = 10
    ∧ (createUser [] "u".toList "p".toList).map
        (fun st => (alGet st "u".toList).map BcryptHash.cost) = .ok (some 10)
    ∧ (createUser [] "u".toList "p".toList).map
        (fun st => (alGet st "u".toList).map BcryptHash.cost) ≠ .ok (some 12) := by
  decide

/-- C8 — amended.  Every password persisted by the identity store —
written by the first-run admin bootstrap, by `CreateUser`, or by
`UpdateUserPassword` — is stored as a bcrypt hash generated with
`bcrypt.DefaultCost`, which is cost 10 (not 12). -/
theorem c8_bcrypt_cost (store : List (List Char × BcryptHash))
    (username password : List Char) :
    (∀ st2, createUser store username password = .ok st2 →
      alGet st2 username = some ⟨10, password⟩)
    ∧ (∀ st2, updateUserPassword store username password = .ok st2 →
      alGet st2 username = some ⟨10, password⟩)
    ∧ alGet (bootstrapAdmin username password) username = some ⟨10, password⟩ := by
  refine ⟨?_, ?_, ?_⟩
  · intro st2 h
    unfold createUser at h
    cases hg : alGet store username with
    | some _ => rw [hg] at h; cases h
    | none =>
      rw [hg] at h
      cases h
      exact alGet_alSet_self _ _ _
  · intro st2 h
    unfold updateUserPassword at h
    cases hg : alGet store username with
    | none => rw [hg] at h; cases h
    | some _ =>
      rw [hg] at h
      cases h
      exact alGet_alSet_self _ _ _
  · exact alGet_alSet_self _ _ _

/-- C8 — witness: the amended theorem at a fresh store, a one-user store
and the bootstrap, each storing a cost-10 hash. -/
theorem c8_bcrypt_cost_witness :
    createUser [] "u".toList "p".toList
      = .ok [("u".toList, ⟨10, "p".toList⟩)]
    ∧ alGet ([("u".toList, (⟨10, "p".toList⟩ : BcryptHash))]) "u".toList
      = some ⟨10, "p".toList⟩
    ∧ alGet (bootstrapAdmin "root".toList "pw".toList) "root".toList
      = some ⟨10, "pw".toList⟩ :=
  ⟨by decide,
   (c8_bcrypt_cost [] "u".toList "p".toList).1
     [("u".toList, ⟨10, "p".toList⟩)] (by decide),
   (c8_bcrypt_cost [] "root".toList "pw".toList).2.2⟩

end ShibuDB
